import Mathlib

/-!
Shallow embedding of `pg_query_stats.c`, a PostgreSQL extension that keeps a
bounded, lock-protected table of per-query timing statistics, fed by
executor start/finish hooks.

Modelling conventions:
* C strings (`char *`) become `List Char`; a possibly-NULL `char *` becomes
  `Option (List Char)`.
* `double` durations and `TimestampTz` timestamps become `ℚ` (exact
  arithmetic standing in for IEEE doubles; the algorithmic claims are about
  sums, minima and maxima, not rounding).
* The shared table (`entries[0 .. num_entries)` plus `num_entries`) becomes a
  `List QueryStatEntry` holding exactly the live prefix, in insertion order.
* The backend-local `query_times_list` becomes a `List PendingEntry`; the
  opaque `QueryDesc *` handle becomes a `Nat`.
* Lock acquire/release brackets single-threaded atomic steps and has no
  further observable content, so it is not modelled.
-/

namespace PgQueryStats

/-- `#define MAX_QUERY_LENGTH 1024`. -/
def MAX_QUERY_LENGTH : Nat := 1024

/-- `QueryStatEntry`: one aggregated record of the shared table. -/
@[ext]
structure QueryStatEntry where
  query_text : List Char
  calls : Nat
  total_time : ℚ
  min_time : ℚ
  max_time : ℚ
  deriving DecidableEq, Repr

/-- The key actually stored and compared: `strncpy(normalized, query,
MAX_QUERY_LENGTH - 1); normalized[MAX_QUERY_LENGTH - 1] = 0` — i.e. the raw
text truncated to the first 1023 bytes. -/
def truncKey (query : List Char) : List Char :=
  query.take (MAX_QUERY_LENGTH - 1)

/-- The found-branch of `pgqs_update_stats`: `calls++`, `total_time +=
duration`, and the two conditional updates of `min_time` / `max_time`. -/
def mergeEntry (e : QueryStatEntry) (duration : ℚ) : QueryStatEntry :=
  { e with
    calls := e.calls + 1
    total_time := e.total_time + duration
    min_time := if duration < e.min_time then duration else e.min_time
    max_time := if duration > e.max_time then duration else e.max_time }

/-- The lookup loop of `pgqs_update_stats` (lines 195–206): scan the live
entries in order; on the first entry whose `query_text` equals the key,
merge the observation into it in place and stop. `none` means the loop fell
through without a match. -/
def updateFound (entries : List QueryStatEntry) (key : List Char)
    (duration : ℚ) : Option (List QueryStatEntry) :=
  match entries with
  | [] => none
  | e :: rest =>
    if e.query_text = key then some (mergeEntry e duration :: rest)
    else (updateFound rest key duration).map (fun l => e :: l)

/-- `pgqs_update_stats(query, duration)` acting on the table state, with the
capacity `N` standing for the `pgqs_max_entries` GUC. The key is the
length-truncated raw text; if no entry matches and `num_entries <
pgqs_max_entries`, a fresh entry with `calls = 1` and `total = min = max =
duration` is appended; at full capacity a new key is silently dropped. -/
def pgqs_update_stats (entries : List QueryStatEntry) (N : Nat)
    (query : List Char) (duration : ℚ) : List QueryStatEntry :=
  let key := truncKey query
  match updateFound entries key duration with
  | some entries' => entries'
  | none =>
    if entries.length < N then
      entries ++ [⟨key, 1, duration, duration, duration⟩]
    else entries

/-- `strcmp`-based lookup: the first live entry whose stored text equals the
key, if any. -/
def lookupEntry (entries : List QueryStatEntry) (key : List Char) :
    Option QueryStatEntry :=
  entries.find? (fun e => e.query_text = key)

/-- A sequence of `pgqs_update_stats` calls, applied left to right. -/
def runUpserts (entries : List QueryStatEntry) (N : Nat) :
    List (List Char × ℚ) → List QueryStatEntry
  | [] => entries
  | (k, d) :: ops => runUpserts (pgqs_update_stats entries N k d) N ops

/-- Repeated upserts of the same raw key with a list of durations. -/
def upsertMany (entries : List QueryStatEntry) (N : Nat) (query : List Char)
    (ds : List ℚ) : List QueryStatEntry :=
  ds.foldl (fun st d => pgqs_update_stats st N query d) entries

/-- The set-returning `pg_query_stats()` function: one row per live entry, in
stored (insertion) order. -/
def snapshot (entries : List QueryStatEntry) :
    List (List Char × Nat × ℚ × ℚ × ℚ) :=
  entries.map (fun e => (e.query_text, e.calls, e.total_time, e.min_time, e.max_time))

/-- `pg_query_stats_reset()`: sets `num_entries` to 0, logically discarding
every live entry. -/
def pg_query_stats_reset (_entries : List QueryStatEntry) :
    List QueryStatEntry :=
  []

/-! ## The normalizer `pgqs_normalize_query` (lines 153–178) -/

/-- The toggle statements at the top of the scan loop: a `'` outside a dollar
region flips `in_quote`; otherwise a `$` outside a quoted region flips
`in_dollar`. Returns the updated `(in_quote, in_dollar)` pair. -/
def normToggle (in_quote in_dollar : Bool) (c : Char) : Bool × Bool :=
  if c = '\'' ∧ ¬in_dollar then (!in_quote, in_dollar)
  else if c = '$' ∧ ¬in_quote then (in_quote, !in_dollar)
  else (in_quote, in_dollar)

/-- `isdigit(c) || c == '?'`: the characters replaced inside a region. -/
def normRepl (c : Char) : Bool :=
  c.isDigit || c = '?'

/-- The scan loop of `pgqs_normalize_query`. `out` is the output built so far
in reverse order, so `out.head?` is `normalized[j-1]`; the replacement is
suppressed when that char is already `?` (`j == 0 || normalized[j-1] != '?'`
guards the emission). -/
def pgqs_normalize_go (in_quote in_dollar : Bool) (out : List Char) :
    List Char → List Char
  | [] => out.reverse
  | c :: cs =>
    let qd := normToggle in_quote in_dollar c
    if (qd.1 || qd.2) && normRepl c then
      if out.head? = some '?' then pgqs_normalize_go qd.1 qd.2 out cs
      else pgqs_normalize_go qd.1 qd.2 ('?' :: out) cs
    else pgqs_normalize_go qd.1 qd.2 (c :: out) cs

/-- `pgqs_normalize_query(query)`: single left-to-right scan starting outside
both regions with an empty output. -/
def pgqs_normalize_query (query : List Char) : List Char :=
  pgqs_normalize_go false false [] query

/-- Modelled from the spec (§4.4 / claim wording), for comparison with
`pgqs_normalize_query`: the same scan described with an explicit
"last action was a replacement" flag, so that consecutive replacements are
collapsed to a single `?`. -/
def normalize_spec_go (in_quote in_dollar lastRepl : Bool) (out : List Char) :
    List Char → List Char
  | [] => out.reverse
  | c :: cs =>
    let qd := normToggle in_quote in_dollar c
    if (qd.1 || qd.2) && normRepl c then
      normalize_spec_go qd.1 qd.2 true (if lastRepl then out else '?' :: out) cs
    else
      normalize_spec_go qd.1 qd.2 false (c :: out) cs

/-- Spec-described normalizer, starting outside both regions. -/
def normalize_spec (query : List Char) : List Char :=
  normalize_spec_go false false false [] query

/-! ## Executor hooks -/

/-- `pgqsQueryEntry`: one backend-local correlation record, pairing the
opaque `QueryDesc *` handle with the start timestamp (microseconds). -/
structure PendingEntry where
  handle : Nat
  start_time : ℚ
  deriving DecidableEq, Repr

/-- The literal `"pg_query_stats"` that `pgqs_ExecutorStart` greps for in the
source text to exclude the collector's own queries. -/
def selfExclusionMarker : List Char :=
  ['p', 'g', '_', 'q', 'u', 'e', 'r', 'y', '_', 's', 't', 'a', 't', 's']

/-- `strstr(hay, needle) != NULL`: `needle` occurs contiguously in `hay`. -/
def hasSubstr (hay needle : List Char) : Bool :=
  hay.tails.any (fun t => needle.isPrefixOf t)

/-- `pgqs_ExecutorStart` acting on the backend-local pending list.
`sourceText = none` models a NULL `queryDesc->sourceText`. When enabled, with
a present source text that does not contain the self-exclusion marker, a
correlation entry is appended unconditionally (no deduplication). -/
def pgqs_ExecutorStart (enabled : Bool) (pending : List PendingEntry)
    (handle : Nat) (sourceText : Option (List Char)) (now : ℚ) :
    List PendingEntry :=
  match sourceText with
  | none => pending
  | some txt =>
    if !enabled then pending
    else if hasSubstr txt selfExclusionMarker then pending
    else pending ++ [⟨handle, now⟩]

/-- `list_delete_ptr(query_times_list, entry)` where `entry` is the first
element matching the handle: removes exactly that first match. -/
def removeFirstPending : List PendingEntry → Nat → List PendingEntry
  | [], _ => []
  | e :: rest, h =>
    if e.handle = h then rest else e :: removeFirstPending rest h

/-- The GUC configuration read by the finish hook. -/
structure Config where
  enabled : Bool
  max_entries : Nat
  min_duration : ℚ
  deriving Repr

/-- `pgqs_ExecutorFinish` acting on the pending list and the shared table.
Scans `query_times_list` for the first entry whose handle matches; if found,
computes `duration_ms = (now - start_time) / 1000`, records it via
`pgqs_update_stats` when `duration_ms >= pgqs_min_duration`, and deletes the
found entry; if not found, changes nothing. -/
def pgqs_ExecutorFinish (cfg : Config) (pending : List PendingEntry)
    (entries : List QueryStatEntry) (handle : Nat)
    (sourceText : Option (List Char)) (now : ℚ) :
    List PendingEntry × List QueryStatEntry :=
  match sourceText with
  | none => (pending, entries)
  | some txt =>
    if !cfg.enabled then (pending, entries)
    else
      match pending.find? (fun e => e.handle = handle) with
      | some e =>
        let duration_ms := (now - e.start_time) / 1000
        let entries' :=
          if duration_ms ≥ cfg.min_duration then
            pgqs_update_stats entries cfg.max_entries txt duration_ms
          else entries
        (removeFirstPending pending handle, entries')
      | none => (pending, entries)

/-- The spec's per-entry invariant (§3): `calls ≥ 1`, `total_time ≥ 0`,
`min_time ≤ max_time`, and `min_time ≤ total_time / calls ≤ max_time`. -/
def EntryWF (e : QueryStatEntry) : Prop :=
  1 ≤ e.calls ∧ 0 ≤ e.total_time ∧ e.min_time ≤ e.max_time ∧
    e.min_time ≤ e.total_time / (e.calls : ℚ) ∧
    e.total_time / (e.calls : ℚ) ≤ e.max_time

instance (e : QueryStatEntry) : Decidable (EntryWF e) := by
  unfold EntryWF
  infer_instance

/-- `SELECT $1` as raw text: a query whose literal argument the normalizer
would rewrite to `?`. -/
def sampleQ1 : List Char :=
  ['S', 'E', 'L', 'E', 'C', 'T', ' ', '$', '1']

/-- `SELECT $2`: differs from `sampleQ1` only in the literal value, so the
normalizer maps both to the same text. -/
def sampleQ2 : List Char :=
  ['S', 'E', 'L', 'E', 'C', 'T', ' ', '$', '2']

/-! ## Helper lemmas about the store -/

theorem mergeEntry_query_text (e : QueryStatEntry) (d : ℚ) :
    (mergeEntry e d).query_text = e.query_text := rfl

theorem merge_if_min (m d : ℚ) : (if d < m then d else m) = min m d := by
  rcases lt_or_le d m with h | h
  · rw [if_pos h, min_eq_right h.le]
  · rw [if_neg (not_lt.mpr h), min_eq_left h]

theorem merge_if_max (m d : ℚ) : (if d > m then d else m) = max m d := by
  rcases lt_or_le m d with h | h
  · rw [if_pos h, max_eq_right h.le]
  · rw [if_neg (not_lt.mpr h), max_eq_left h]

theorem updateFound_of_lookup_none {entries : List QueryStatEntry}
    {key : List Char} (d : ℚ) (h : lookupEntry entries key = none) :
    updateFound entries key d = none := by
  induction entries with
  | nil => rfl
  | cons e rest ih =>
    rw [lookupEntry, List.find?_cons] at h
    rw [updateFound]
    split at h
    · exact absurd h (by simp)
    · rename_i hne
      rw [if_neg (by simpa using hne), ih h]
      rfl

theorem updateFound_some_length {entries l : List QueryStatEntry}
    {key : List Char} {d : ℚ} (h : updateFound entries key d = some l) :
    l.length = entries.length := by
  induction entries generalizing l with
  | nil => simp [updateFound] at h
  | cons e rest ih =>
    rw [updateFound] at h
    split at h
    · obtain rfl := Option.some_injective _ h
      simp
    · obtain ⟨l', hl', rfl⟩ := Option.map_eq_some'.mp h
      simp [ih hl']

theorem update_stats_new {st : List QueryStatEntry} {N : Nat}
    {k : List Char} (d : ℚ) (hnew : lookupEntry st (truncKey k) = none)
    (hfree : st.length < N) :
    pgqs_update_stats st N k d = st ++ [⟨truncKey k, 1, d, d, d⟩] := by
  rw [pgqs_update_stats, updateFound_of_lookup_none d hnew]
  simp [hfree]

theorem update_stats_full_drop {st : List QueryStatEntry} {N : Nat}
    {k : List Char} (d : ℚ) (hnew : lookupEntry st (truncKey k) = none)
    (hfull : ¬ st.length < N) :
    pgqs_update_stats st N k d = st := by
  rw [pgqs_update_stats, updateFound_of_lookup_none d hnew]
  simp [hfull]

theorem updateFound_append_last {pre : List QueryStatEntry}
    {e : QueryStatEntry} {key : List Char} (d : ℚ)
    (hpre : lookupEntry pre key = none) (he : e.query_text = key) :
    updateFound (pre ++ [e]) key d = some (pre ++ [mergeEntry e d]) := by
  induction pre with
  | nil => simp [updateFound, he]
  | cons x rest ih =>
    rw [lookupEntry, List.find?_cons] at hpre
    split at hpre
    · exact absurd hpre (by simp)
    · rename_i hne
      have hx : ¬ x.query_text = key := by simpa using hne
      rw [List.cons_append, updateFound, if_neg hx, ih hpre]
      rfl

theorem update_stats_last {pre : List QueryStatEntry} {e : QueryStatEntry}
    {N : Nat} {k : List Char} (d : ℚ)
    (hpre : lookupEntry pre (truncKey k) = none)
    (he : e.query_text = truncKey k) :
    pgqs_update_stats (pre ++ [e]) N k d = pre ++ [mergeEntry e d] := by
  rw [pgqs_update_stats, updateFound_append_last d hpre he]

theorem upsertMany_last {N : Nat} {k : List Char} :
    ∀ (ds : List ℚ) (pre : List QueryStatEntry) (e : QueryStatEntry),
    lookupEntry pre (truncKey k) = none → e.query_text = truncKey k →
    upsertMany (pre ++ [e]) N k ds = pre ++ [ds.foldl mergeEntry e]
  | [], _, _, _, _ => rfl
  | d :: ds, pre, e, hpre, he => by
    rw [upsertMany, List.foldl_cons, show ds.foldl _ _ = upsertMany
        (pgqs_update_stats (pre ++ [e]) N k d) N k ds from rfl,
      update_stats_last d hpre he]
    exact upsertMany_last ds pre (mergeEntry e d) hpre (by rw [mergeEntry_query_text, he])

theorem foldl_merge_query_text (ds : List ℚ) (e : QueryStatEntry) :
    (ds.foldl mergeEntry e).query_text = e.query_text := by
  induction ds generalizing e with
  | nil => rfl
  | cons d ds ih => rw [List.foldl_cons, ih, mergeEntry_query_text]

theorem foldl_merge_calls (ds : List ℚ) (e : QueryStatEntry) :
    (ds.foldl mergeEntry e).calls = e.calls + ds.length := by
  induction ds generalizing e with
  | nil => rfl
  | cons d ds ih =>
    rw [List.foldl_cons, ih]
    show e.calls + 1 + ds.length = _
    rw [List.length_cons]
    omega

theorem foldl_merge_total (ds : List ℚ) (e : QueryStatEntry) :
    (ds.foldl mergeEntry e).total_time = e.total_time + ds.sum := by
  induction ds generalizing e with
  | nil => simp
  | cons d ds ih =>
    rw [List.foldl_cons, ih]
    show e.total_time + d + ds.sum = _
    rw [List.sum_cons]
    ring

theorem foldl_merge_min (ds : List ℚ) (e : QueryStatEntry) :
    (ds.foldl mergeEntry e).min_time = ds.foldl min e.min_time := by
  induction ds generalizing e with
  | nil => rfl
  | cons d ds ih =>
    rw [List.foldl_cons, ih, List.foldl_cons]
    show ds.foldl min (if d < e.min_time then d else e.min_time) = _
    rw [merge_if_min]

theorem foldl_merge_max (ds : List ℚ) (e : QueryStatEntry) :
    (ds.foldl mergeEntry e).max_time = ds.foldl max e.max_time := by
  induction ds generalizing e with
  | nil => rfl
  | cons d ds ih =>
    rw [List.foldl_cons, ih, List.foldl_cons]
    show ds.foldl max (if d > e.max_time then d else e.max_time) = _
    rw [merge_if_max]

theorem updateFound_of_lookup_some {entries : List QueryStatEntry}
    {key : List Char} {e : QueryStatEntry} (d : ℚ)
    (h : lookupEntry entries key = some e) :
    ∃ l, updateFound entries key d = some l ∧ l.length = entries.length ∧
      lookupEntry l key = some (mergeEntry e d) := by
  induction entries with
  | nil => simp [lookupEntry] at h
  | cons x rest ih =>
    by_cases hx : x.query_text = key
    · rw [lookupEntry, List.find?_cons_of_pos _ (by simpa using hx)] at h
      obtain rfl := Option.some_injective _ h
      refine ⟨mergeEntry x d :: rest, ?_, by simp, ?_⟩
      · rw [updateFound, if_pos hx]
      · rw [lookupEntry,
          List.find?_cons_of_pos _
            (by simpa using (mergeEntry_query_text x d).trans hx)]
    · rw [lookupEntry, List.find?_cons_of_neg _ (by simpa using hx)] at h
      obtain ⟨l, hl, hlen, hlook⟩ := ih h
      refine ⟨x :: l, ?_, by simpa using hlen, ?_⟩
      · rw [updateFound, if_neg hx, hl]
        rfl
      · rw [lookupEntry, List.find?_cons_of_neg _ (by simpa using hx)]
        exact hlook

theorem update_stats_found {st : List QueryStatEntry} {N : Nat}
    {k : List Char} {e : QueryStatEntry} (d : ℚ)
    (h : lookupEntry st (truncKey k) = some e) :
    (pgqs_update_stats st N k d).length = st.length ∧
      lookupEntry (pgqs_update_stats st N k d) (truncKey k) =
        some (mergeEntry e d) := by
  obtain ⟨l, hl, hlen, hlook⟩ := updateFound_of_lookup_some d h
  rw [pgqs_update_stats, hl]
  exact ⟨hlen, hlook⟩

theorem update_stats_length_le {st : List QueryStatEntry} {N : Nat}
    (k : List Char) (d : ℚ) (h : st.length ≤ N) :
    (pgqs_update_stats st N k d).length ≤ N := by
  rw [pgqs_update_stats]
  cases hu : updateFound st (truncKey k) d with
  | some l => simpa [updateFound_some_length hu] using h
  | none =>
    by_cases hlt : st.length < N
    · rw [if_pos hlt]
      simpa using hlt
    · rw [if_neg hlt]
      exact h

theorem runUpserts_length_le {N : Nat} :
    ∀ (ops : List (List Char × ℚ)) (st : List QueryStatEntry),
    st.length ≤ N → (runUpserts st N ops).length ≤ N
  | [], _, h => h
  | (k, d) :: ops, st, h =>
    runUpserts_length_le ops _ (update_stats_length_le k d h)

/-! ## C1 — merge correctness -/

/-- Claim C1: starting from a table without key `K` and with free capacity, a
sequence of `n ≥ 1` upserts of `K` with durations `d1, …, dn` leaves every
other entry untouched and produces for `K` a single entry (created in place
at the end by the first call and mutated in place by each subsequent one)
whose fields are `calls = n`, `total_time = Σ di`, `min_time = min(di)`,
`max_time = max(di)`. -/
theorem merge_correctness (st : List QueryStatEntry) (N : Nat)
    (k : List Char) (d : ℚ) (ds : List ℚ)
    (hnew : lookupEntry st (truncKey k) = none) (hfree : st.length < N) :
    upsertMany st N k (d :: ds) =
      st ++ [⟨truncKey k, ds.length + 1, d + ds.sum,
        ds.foldl min d, ds.foldl max d⟩] := by
  rw [upsertMany, List.foldl_cons,
    show ds.foldl _ _ = upsertMany (pgqs_update_stats st N k d) N k ds from rfl,
    update_stats_new d hnew hfree,
    upsertMany_last ds st ⟨truncKey k, 1, d, d, d⟩ hnew rfl]
  refine congrArg (fun l => st ++ [l]) ?_
  refine QueryStatEntry.ext ?_ ?_ ?_ ?_ ?_
  · exact foldl_merge_query_text ds _
  · rw [foldl_merge_calls]
    exact Nat.add_comm 1 ds.length
  · exact foldl_merge_total ds _
  · exact foldl_merge_min ds _
  · exact foldl_merge_max ds _

/-- Closed instance of C1: spec scenario B (`A` observed with durations
5, 15, 5 gives calls = 3, total = 25, min = 5, max = 15). -/
theorem merge_correctness_witness :
    upsertMany [] 10 ['A'] (5 :: [15, 5]) =
      [] ++ [⟨truncKey ['A'], [15, 5].length + 1, 5 + [15, 5].sum,
        [15, 5].foldl min 5, [15, 5].foldl max 5⟩] :=
  merge_correctness [] 10 ['A'] 5 [15, 5] rfl (by decide)

/-! ## C2 — capacity bound -/

/-- Claim C2: the table never exceeds the capacity `N`; an upsert of a fresh key
into a full table is a silent no-op (the table value is unchanged, so no
entry is created and no existing entry is modified), while an upsert whose
key is already present updates that entry even at full capacity. -/
theorem capacity_bound (N : Nat) (st : List QueryStatEntry) (k : List Char)
    (d : ℚ) :
    (∀ ops : List (List Char × ℚ), (runUpserts [] N ops).length ≤ N) ∧
    (st.length ≤ N → (pgqs_update_stats st N k d).length ≤ N) ∧
    (st.length = N → lookupEntry st (truncKey k) = none →
      pgqs_update_stats st N k d = st) ∧
    (∀ e, lookupEntry st (truncKey k) = some e →
      (pgqs_update_stats st N k d).length = st.length ∧
        lookupEntry (pgqs_update_stats st N k d) (truncKey k) =
          some (mergeEntry e d)) := by
  refine ⟨fun ops => runUpserts_length_le ops [] (Nat.zero_le N), ?_, ?_, ?_⟩
  · exact update_stats_length_le k d
  · intro hsize hnew
    exact update_stats_full_drop d hnew (by omega)
  · intro e hfound
    exact update_stats_found d hfound

/-- Closed instance of C2 at capacity 2 with the table `[A, B]` full:
upserting the fresh key `C` leaves the table exactly as it was, and
upserting the present key `A` still merges into its entry. -/
theorem capacity_bound_witness :
    (pgqs_update_stats [⟨['A'], 1, 5, 5, 5⟩, ⟨['B'], 1, 10, 10, 10⟩] 2 ['C'] 3 =
      [⟨['A'], 1, 5, 5, 5⟩, ⟨['B'], 1, 10, 10, 10⟩]) ∧
    ((pgqs_update_stats [⟨['A'], 1, 5, 5, 5⟩, ⟨['B'], 1, 10, 10, 10⟩] 2 ['A'] 7).length = 2 ∧
      lookupEntry
        (pgqs_update_stats [⟨['A'], 1, 5, 5, 5⟩, ⟨['B'], 1, 10, 10, 10⟩] 2 ['A'] 7)
        (truncKey ['A']) = some (mergeEntry ⟨['A'], 1, 5, 5, 5⟩ 7)) :=
  ⟨(capacity_bound 2 [⟨['A'], 1, 5, 5, 5⟩, ⟨['B'], 1, 10, 10, 10⟩] ['C'] 3).2.2.1
      rfl (by decide),
   (capacity_bound 2 [⟨['A'], 1, 5, 5, 5⟩, ⟨['B'], 1, 10, 10, 10⟩] ['A'] 7).2.2.2
      ⟨['A'], 1, 5, 5, 5⟩ (by decide)⟩

/-! ## C7 — reset completeness -/

/-- Claim C7: after any sequence of upserts, `pg_query_stats_reset` leaves a table
whose snapshot is the empty sequence of rows; the reset discards all entries
together (the resulting table is empty and holds nothing else). -/
theorem reset_completeness (N : Nat) (ops : List (List Char × ℚ))
    (entries : List QueryStatEntry) :
    snapshot (pg_query_stats_reset (runUpserts [] N ops)) = [] ∧
      pg_query_stats_reset entries = [] ∧
      (pg_query_stats_reset entries).length = 0 :=
  ⟨rfl, rfl, rfl⟩

/-! ## C3 — per-entry statistical invariant -/

theorem mergeEntry_WF {e : QueryStatEntry} {d : ℚ} (he : EntryWF e)
    (hd : 0 ≤ d) : EntryWF (mergeEntry e d) := by
  obtain ⟨hc, ht, hmm, hlo, hhi⟩ := he
  have hc0 : (0 : ℚ) < (e.calls : ℚ) := by exact_mod_cast hc
  have hc1 : (0 : ℚ) < (e.calls : ℚ) + 1 := by positivity
  have hlo' : e.min_time * (e.calls : ℚ) ≤ e.total_time :=
    (le_div_iff hc0).mp hlo
  have hhi' : e.total_time ≤ e.max_time * (e.calls : ℚ) :=
    (div_le_iff hc0).mp hhi
  refine ⟨Nat.le_succ_of_le hc,
    show (0 : ℚ) ≤ e.total_time + d by linarith, ?_, ?_, ?_⟩
  · show (if d < e.min_time then d else e.min_time) ≤
      (if d > e.max_time then d else e.max_time)
    rw [merge_if_min, merge_if_max]
    exact le_trans (min_le_left _ _) (le_trans hmm (le_max_left _ _))
  · show (if d < e.min_time then d else e.min_time) ≤
      (e.total_time + d) / ((e.calls + 1 : Nat) : ℚ)
    rw [merge_if_min, le_div_iff (by push_cast; linarith)]
    push_cast
    have h1 : min e.min_time d ≤ e.min_time := min_le_left _ _
    have h2 : min e.min_time d ≤ d := min_le_right _ _
    nlinarith [mul_le_mul_of_nonneg_right h1 hc0.le]
  · show (e.total_time + d) / ((e.calls + 1 : Nat) : ℚ) ≤
      (if d > e.max_time then d else e.max_time)
    rw [merge_if_max, div_le_iff (by push_cast; linarith)]
    push_cast
    have h1 : e.max_time ≤ max e.max_time d := le_max_left _ _
    have h2 : d ≤ max e.max_time d := le_max_right _ _
    nlinarith [mul_le_mul_of_nonneg_right h1 hc0.le]

theorem newEntry_WF {key : List Char} {d : ℚ} (hd : 0 ≤ d) :
    EntryWF ⟨key, 1, d, d, d⟩ := by
  refine ⟨le_refl 1, hd, le_refl d, ?_, ?_⟩ <;> simp

theorem updateFound_mem {entries l : List QueryStatEntry} {key : List Char}
    {d : ℚ} (h : updateFound entries key d = some l) :
    ∀ y ∈ l, y ∈ entries ∨ ∃ x ∈ entries, y = mergeEntry x d := by
  induction entries generalizing l with
  | nil => simp [updateFound] at h
  | cons e rest ih =>
    rw [updateFound] at h
    split at h
    · obtain rfl := Option.some_injective _ h
      intro y hy
      rcases List.mem_cons.mp hy with rfl | hy
      · exact Or.inr ⟨e, List.mem_cons_self e rest, rfl⟩
      · exact Or.inl (List.mem_cons_of_mem e hy)
    · obtain ⟨l', hl', rfl⟩ := Option.map_eq_some'.mp h
      intro y hy
      rcases List.mem_cons.mp hy with rfl | hy
      · exact Or.inl (List.mem_cons_self y rest)
      · rcases ih hl' y hy with hmem | ⟨x, hx, rfl⟩
        · exact Or.inl (List.mem_cons_of_mem e hmem)
        · exact Or.inr ⟨x, List.mem_cons_of_mem e hx, rfl⟩

theorem update_stats_WF {st : List QueryStatEntry} {N : Nat} {k : List Char}
    {d : ℚ} (hst : ∀ e ∈ st, EntryWF e) (hd : 0 ≤ d) :
    ∀ e ∈ pgqs_update_stats st N k d, EntryWF e := by
  rw [pgqs_update_stats]
  cases hu : updateFound st (truncKey k) d with
  | some l =>
    intro e he
    rcases updateFound_mem hu e he with hmem | ⟨x, hx, rfl⟩
    · exact hst e hmem
    · exact mergeEntry_WF (hst x hx) hd
  | none =>
    by_cases hlt : st.length < N
    · rw [if_pos hlt]
      intro e he
      rcases List.mem_append.mp he with hmem | hmem
      · exact hst e hmem
      · rw [List.mem_singleton.mp hmem]
        exact newEntry_WF hd
    · rw [if_neg hlt]
      exact hst

theorem runUpserts_WF {N : Nat} :
    ∀ (ops : List (List Char × ℚ)) (st : List QueryStatEntry),
    (∀ e ∈ st, EntryWF e) → (∀ p ∈ ops, 0 ≤ p.2) →
    ∀ e ∈ runUpserts st N ops, EntryWF e
  | [], _, hst, _ => hst
  | (k, d) :: ops, st, hst, hd =>
    runUpserts_WF ops _
      (update_stats_WF hst (hd (k, d) (List.mem_cons_self _ _)))
      (fun p hp => hd p (List.mem_cons_of_mem _ hp))

/-- Claim C3: in every table state reachable from the empty table by upserts with
nonnegative durations, every entry satisfies `calls ≥ 1`, `total_time ≥ 0`,
`min_time ≤ max_time` and `min_time ≤ total_time / calls ≤ max_time`. -/
theorem per_entry_invariant (N : Nat) (ops : List (List Char × ℚ))
    (hd : ∀ p ∈ ops, 0 ≤ p.2) :
    ∀ e ∈ runUpserts [] N ops, EntryWF e :=
  runUpserts_WF ops [] (by intro e he; simp at he) hd

/-- Closed instance of C3: the entry produced by observing `A` at durations
5 and 15 satisfies the invariant. -/
theorem per_entry_invariant_witness :
    EntryWF ⟨['A'], 2, 20, 5, 15⟩ :=
  per_entry_invariant 10 [(['A'], 5), (['A'], 15)] (by decide)
    ⟨['A'], 2, 20, 5, 15⟩ (by
      have h : runUpserts [] 10 [(['A'], 5), (['A'], 15)] =
          [⟨['A'], 2, 20, 5, 15⟩] := by
        simp [runUpserts, pgqs_update_stats, updateFound, truncKey, mergeEntry,
          MAX_QUERY_LENGTH]
        norm_num
      rw [h]
      exact List.mem_singleton.mpr rfl)

/-! ## C8 / C10 — the aggregation key -/

theorem truncKey_eq_take_1023 (t : List Char) : truncKey t = t.take 1023 := by
  rw [truncKey]
  norm_num [MAX_QUERY_LENGTH]

theorem update_stats_key_congr {t1 t2 : List Char}
    (h : truncKey t1 = truncKey t2) (st : List QueryStatEntry) (N : Nat)
    (d : ℚ) : pgqs_update_stats st N t1 d = pgqs_update_stats st N t2 d := by
  rw [pgqs_update_stats, pgqs_update_stats, h]

/-- Claim C8: the aggregation key is the raw, length-truncated operation text with
exact equality for lookup — the normalizer is not applied on that path. A
fresh upsert stores the literal truncated text; `sampleQ1`/`sampleQ2` differ
only in a literal value (the normalizer maps them to the same text), yet two
upserts for them create two separate entries. -/
theorem aggregation_key_is_raw (st : List QueryStatEntry) (N : Nat)
    (k : List Char) (d : ℚ) :
    (lookupEntry st (truncKey k) = none → st.length < N →
      pgqs_update_stats st N k d = st ++ [⟨truncKey k, 1, d, d, d⟩]) ∧
    (pgqs_normalize_query sampleQ1 = pgqs_normalize_query sampleQ2 ∧
      sampleQ1 ≠ sampleQ2 ∧
      (pgqs_update_stats (pgqs_update_stats [] 2 sampleQ1 5) 2 sampleQ2 7).length
        = 2) :=
  ⟨fun hnew hfree => update_stats_new d hnew hfree,
   by decide, by decide, by decide⟩

/-- Closed instance of C8: upserting `SELECT $1` into the empty table stores
the raw (truncated) text as the key. -/
theorem aggregation_key_is_raw_witness :
    pgqs_update_stats [] 2 sampleQ1 5 =
      [] ++ [⟨truncKey sampleQ1, 1, 5, 5, 5⟩] :=
  (aggregation_key_is_raw [] 2 sampleQ1 5).1 rfl (by decide)

/-- Claim C10: only the first 1023 bytes of the raw text form the key, so two raw
texts agreeing on that prefix are treated as the same key — a single upsert
behaves identically for them, and upserting both (starting from a table not
containing the key, with free capacity) merges the two observations into one
entry with `calls = 2`. -/
theorem key_truncation_collision (t1 t2 : List Char) :
    (t1.take 1023 = t2.take 1023 →
      ∀ (st : List QueryStatEntry) (N : Nat) (d : ℚ),
        pgqs_update_stats st N t1 d = pgqs_update_stats st N t2 d) ∧
    (∀ (st : List QueryStatEntry) (N : Nat) (d1 d2 : ℚ),
      t1.take 1023 = t2.take 1023 →
      lookupEntry st (truncKey t1) = none → st.length < N →
      pgqs_update_stats (pgqs_update_stats st N t1 d1) N t2 d2 =
        st ++ [⟨truncKey t1, 2, d1 + d2, min d1 d2, max d1 d2⟩]) := by
  constructor
  · intro h st N d
    exact update_stats_key_congr
      (by rw [truncKey_eq_take_1023, truncKey_eq_take_1023, h]) st N d
  · intro st N d1 d2 h hnew hfree
    have htr : truncKey t1 = truncKey t2 := by
      rw [truncKey_eq_take_1023, truncKey_eq_take_1023, h]
    rw [update_stats_new d1 hnew hfree,
      update_stats_last d2 (htr ▸ hnew) (show _ = truncKey t2 from htr)]
    refine congrArg (fun l => st ++ [l]) ?_
    refine QueryStatEntry.ext rfl rfl rfl ?_ ?_
    · exact merge_if_min d1 d2
    · exact merge_if_max d1 d2

/-- Closed instance of C10: two 1024-byte texts that agree on their first
1023 bytes and differ in the last one are merged into a single entry. -/
theorem key_truncation_collision_witness :
    pgqs_update_stats
        (pgqs_update_stats [] 5 (List.replicate 1023 'a' ++ ['b']) 4) 5
        (List.replicate 1023 'a' ++ ['c']) 6 =
      [] ++ [⟨truncKey (List.replicate 1023 'a' ++ ['b']), 2, 4 + 6,
        min 4 6, max 4 6⟩] :=
  (key_truncation_collision (List.replicate 1023 'a' ++ ['b'])
      (List.replicate 1023 'a' ++ ['c'])).2 [] 5 4 6
    (by
      rw [List.take_left' (List.length_replicate 1023 'a'),
        List.take_left' (List.length_replicate 1023 'a')])
    rfl (by decide)

/-! ## Helper lemmas about the correlation list -/

theorem truncKey_idem (t : List Char) : truncKey (truncKey t) = truncKey t := by
  rw [truncKey, truncKey, List.take_take, Nat.min_self]

theorem find_pending_split {pending : List PendingEntry} {h : Nat}
    {e : PendingEntry}
    (hf : pending.find? (fun x => x.handle = h) = some e) :
    ∃ pre post, pending = pre ++ e :: post ∧ (∀ x ∈ pre, x.handle ≠ h) ∧
      e.handle = h ∧ removeFirstPending pending h = pre ++ post := by
  induction pending with
  | nil => simp at hf
  | cons x rest ih =>
    by_cases hx : x.handle = h
    · rw [List.find?_cons_of_pos _ (by simpa using hx)] at hf
      obtain rfl := Option.some_injective _ hf
      refine ⟨[], rest, rfl, by simp, hx, ?_⟩
      rw [removeFirstPending, if_pos hx]
      rfl
    · rw [List.find?_cons_of_neg _ (by simpa using hx)] at hf
      obtain ⟨pre, post, hsplit, hpre, he, hrm⟩ := ih hf
      refine ⟨x :: pre, post, by rw [hsplit]; rfl, ?_, he, ?_⟩
      · intro y hy
        rcases List.mem_cons.mp hy with rfl | hy
        · exact hx
        · exact hpre y hy
      · rw [removeFirstPending, if_neg hx, hrm]
        rfl

/-! ## C4 — minimum-duration filter -/

/-- Claim C4: on a finish event whose correlated duration is strictly below
`min_duration`, the statistics table is completely unchanged; at or above
the threshold, the observation is forwarded to `pgqs_update_stats`, whose
key is the length-truncated operation text. -/
theorem min_duration_filter (cfg : Config) (pending : List PendingEntry)
    (entries : List QueryStatEntry) (h : Nat) (txt : List Char) (now : ℚ)
    (e : PendingEntry) (henabled : cfg.enabled = true)
    (hfind : pending.find? (fun x => x.handle = h) = some e) :
    ((now - e.start_time) / 1000 < cfg.min_duration →
      (pgqs_ExecutorFinish cfg pending entries h (some txt) now).2 =
        entries) ∧
    (cfg.min_duration ≤ (now - e.start_time) / 1000 →
      (pgqs_ExecutorFinish cfg pending entries h (some txt) now).2 =
        pgqs_update_stats entries cfg.max_entries (truncKey txt)
          ((now - e.start_time) / 1000)) := by
  constructor
  · intro hlt
    simp only [pgqs_ExecutorFinish, henabled, Bool.not_true, Bool.false_eq_true,
      if_false, hfind]
    rw [if_neg (not_le.mpr hlt)]
  · intro hge
    simp only [pgqs_ExecutorFinish, henabled, Bool.not_true, Bool.false_eq_true,
      if_false, hfind]
    rw [if_pos hge]
    exact update_stats_key_congr (truncKey_idem txt).symm entries
      cfg.max_entries ((now - e.start_time) / 1000)

/-- Closed instance of C4: with threshold 10 ms, a 5 ms finish leaves the
empty table empty, while a 20 ms finish forwards the observation. -/
theorem min_duration_filter_witness :
    ((pgqs_ExecutorFinish ⟨true, 10, 10⟩ [⟨1, 0⟩] [] 1 (some ['A']) 5000).2 =
      []) ∧
    ((pgqs_ExecutorFinish ⟨true, 10, 10⟩ [⟨1, 0⟩] [] 1 (some ['A']) 20000).2 =
      pgqs_update_stats [] 10 (truncKey ['A']) ((20000 - 0) / 1000)) :=
  ⟨(min_duration_filter ⟨true, 10, 10⟩ [⟨1, 0⟩] [] 1 ['A'] 5000 ⟨1, 0⟩ rfl
      rfl).1 (by norm_num),
   (min_duration_filter ⟨true, 10, 10⟩ [⟨1, 0⟩] [] 1 ['A'] 20000 ⟨1, 0⟩ rfl
      rfl).2 (by norm_num)⟩

/-! ## C5 — correlation tracker semantics -/

/-- Claim C5: a finish event removes exactly the first (oldest-appended) matching
pending entry and uses its start timestamp for the duration; with no match,
neither the pending list nor the table changes; a start appends
unconditionally, so two starts of one handle leave two pending entries. -/
theorem correlation_semantics (cfg : Config) (pending : List PendingEntry)
    (entries : List QueryStatEntry) (h : Nat) (txt : List Char) (now : ℚ)
    (henabled : cfg.enabled = true) :
    (∀ e, pending.find? (fun x => x.handle = h) = some e →
      ∃ pre post, pending = pre ++ e :: post ∧ (∀ x ∈ pre, x.handle ≠ h) ∧
        e.handle = h ∧
        pgqs_ExecutorFinish cfg pending entries h (some txt) now =
          (pre ++ post,
            if (now - e.start_time) / 1000 ≥ cfg.min_duration then
              pgqs_update_stats entries cfg.max_entries txt
                ((now - e.start_time) / 1000)
            else entries)) ∧
    (pending.find? (fun x => x.handle = h) = none →
      pgqs_ExecutorFinish cfg pending entries h (some txt) now =
        (pending, entries)) ∧
    (∀ (txt2 : List Char) (t1 t2 : ℚ),
      hasSubstr txt2 selfExclusionMarker = false →
      pgqs_ExecutorStart true
          (pgqs_ExecutorStart true pending h (some txt2) t1) h (some txt2) t2 =
        pending ++ [⟨h, t1⟩, ⟨h, t2⟩]) := by
  refine ⟨?_, ?_, ?_⟩
  · intro e hf
    obtain ⟨pre, post, hsplit, hpre, he, hrm⟩ := find_pending_split hf
    refine ⟨pre, post, hsplit, hpre, he, ?_⟩
    simp only [pgqs_ExecutorFinish, henabled, Bool.not_true,
      Bool.false_eq_true, if_false, hf]
    rw [hrm]
  · intro hf
    simp only [pgqs_ExecutorFinish, henabled, Bool.not_true,
      Bool.false_eq_true, if_false, hf]
  · intro txt2 t1 t2 hmark
    simp only [pgqs_ExecutorStart, hmark, Bool.not_true, Bool.false_eq_true,
      if_false, List.append_assoc]
    rfl

/-- Closed instance of C5: with pending `[⟨2,0⟩, ⟨1,100⟩, ⟨1,200⟩]`, a finish
for handle 1 removes exactly `⟨1,100⟩` (the first match), and two starts of
handle 1 append two entries. -/
theorem correlation_semantics_witness :
    (∃ pre post,
      ([⟨2, 0⟩, ⟨1, 100⟩, ⟨1, 200⟩] : List PendingEntry) =
        pre ++ ⟨1, 100⟩ :: post ∧
      (∀ x ∈ pre, x.handle ≠ 1) ∧ (⟨1, 100⟩ : PendingEntry).handle = 1 ∧
      pgqs_ExecutorFinish ⟨true, 10, 0⟩ [⟨2, 0⟩, ⟨1, 100⟩, ⟨1, 200⟩] [] 1
          (some ['x']) 1100 =
        (pre ++ post,
          if (1100 - (⟨1, 100⟩ : PendingEntry).start_time) / 1000 ≥
              (⟨true, 10, 0⟩ : Config).min_duration then
            pgqs_update_stats [] 10 ['x']
              ((1100 - (⟨1, 100⟩ : PendingEntry).start_time) / 1000)
          else [])) ∧
    (pgqs_ExecutorStart true (pgqs_ExecutorStart true [] 1 (some ['x']) 3) 1
        (some ['x']) 4 = [] ++ [⟨1, 3⟩, ⟨1, 4⟩]) :=
  ⟨(correlation_semantics ⟨true, 10, 0⟩ [⟨2, 0⟩, ⟨1, 100⟩, ⟨1, 200⟩] [] 1
      ['x'] 1100 rfl).1 ⟨1, 100⟩ rfl,
   (correlation_semantics ⟨true, 10, 0⟩ [] [] 1 ['x'] 1100 rfl).2.2 ['x'] 3 4
      (by decide)⟩

/-! ## C6 — start-side filtering and self-exclusion -/

/-- Claim C6: `pgqs_ExecutorStart` is a no-op when the collector is disabled, when
the source text is absent, or when the text contains the self-exclusion
marker; consequently an operation whose text contains the marker (and whose
handle has no stale pending entry) never produces a table entry at finish,
regardless of its duration. -/
theorem start_filters (pending : List PendingEntry) (h : Nat) (now : ℚ) :
    (∀ txtOpt, pgqs_ExecutorStart false pending h txtOpt now = pending) ∧
    (∀ enabled, pgqs_ExecutorStart enabled pending h none now = pending) ∧
    (∀ txt, hasSubstr txt selfExclusionMarker = true →
      pgqs_ExecutorStart true pending h (some txt) now = pending) ∧
    (∀ (txt : List Char) (cfg : Config) (entries : List QueryStatEntry)
        (now2 : ℚ),
      hasSubstr txt selfExclusionMarker = true →
      (∀ x ∈ pending, x.handle ≠ h) →
      (pgqs_ExecutorFinish cfg
          (pgqs_ExecutorStart true pending h (some txt) now) entries h
          (some txt) now2).2 = entries) := by
  refine ⟨?_, ?_, ?_, ?_⟩
  · intro txtOpt
    cases txtOpt <;> rfl
  · intro enabled
    rfl
  · intro txt hmark
    simp [pgqs_ExecutorStart, hmark]
  · intro txt cfg entries now2 hmark hnone
    have hstart : pgqs_ExecutorStart true pending h (some txt) now = pending := by
      simp [pgqs_ExecutorStart, hmark]
    rw [hstart]
    have hf : pending.find? (fun x => x.handle = h) = none :=
      List.find?_eq_none.mpr (fun x hx => by simpa using hnone x hx)
    cases henabled : cfg.enabled with
    | false => simp [pgqs_ExecutorFinish, henabled]
    | true => simp [pgqs_ExecutorFinish, henabled, hf]

/-- Closed instance of C6: all three start filters at concrete inputs, and a
marker-containing text produces no table entry end to end. -/
theorem start_filters_witness :
    (pgqs_ExecutorStart false [] 1 (some ['a']) 0 = []) ∧
    (pgqs_ExecutorStart true [] 1 none 0 = []) ∧
    (pgqs_ExecutorStart true [] 1 (some selfExclusionMarker) 0 = []) ∧
    ((pgqs_ExecutorFinish ⟨true, 10, 0⟩
        (pgqs_ExecutorStart true [] 1 (some selfExclusionMarker) 0) [] 1
        (some selfExclusionMarker) 99).2 = []) :=
  ⟨(start_filters [] 1 0).1 (some ['a']),
   (start_filters [] 1 0).2.1 true,
   (start_filters [] 1 0).2.2.1 selfExclusionMarker (by decide),
   (start_filters [] 1 0).2.2.2 selfExclusionMarker ⟨true, 10, 0⟩ [] 99
      (by decide) (by simp)⟩

/-! ## C9 — normalizer behavior -/

theorem normToggle_of_repl {c : Char} (h : normRepl c = true) (q d : Bool) :
    normToggle q d c = (q, d) := by
  have h1 : c ≠ '\'' := by
    intro hc
    rw [hc] at h
    exact absurd h (by decide)
  have h2 : c ≠ '$' := by
    intro hc
    rw [hc] at h
    exact absurd h (by decide)
  rw [normToggle, if_neg (fun hand => h1 hand.1), if_neg (fun hand => h2 hand.1)]

theorem normalize_go_eq (cs : List Char) :
    ∀ (q d r : Bool) (out : List Char),
    ((q || d) = true → (r = true ↔ out.head? = some '?')) →
    pgqs_normalize_go q d out cs = normalize_spec_go q d r out cs := by
  induction cs with
  | nil =>
    intro q d r out _
    rfl
  | cons c cs ih =>
    intro q d r out hinv
    simp only [pgqs_normalize_go, normalize_spec_go]
    by_cases hcond :
        (((normToggle q d c).1 || (normToggle q d c).2) && normRepl c) = true
    · have hcond' := hcond
      rw [Bool.and_eq_true] at hcond'
      have hrepl : normRepl c = true := hcond'.2
      have hqd : normToggle q d c = (q, d) := normToggle_of_repl hrepl q d
      have hflags : (q || d) = true := by
        have h := hcond'.1
        rwa [hqd] at h
      rw [if_pos hcond, if_pos hcond, hqd]
      cases hr : r with
      | true =>
        have hhead : out.head? = some '?' := (hinv hflags).mp hr
        rw [if_pos hhead, if_pos rfl]
        exact ih q d true out (fun _ => ⟨fun _ => hhead, fun _ => rfl⟩)
      | false =>
        have hhead : ¬ out.head? = some '?' := by
          intro hh
          have := (hinv hflags).mpr hh
          rw [this] at hr
          exact Bool.true_eq_false.mp hr
        rw [if_neg hhead, if_neg (by simp)]
        exact ih q d true ('?' :: out) (fun _ => ⟨fun _ => rfl, fun _ => rfl⟩)
    · rw [if_neg hcond, if_neg hcond]
      refine ih (normToggle q d c).1 (normToggle q d c).2 false (c :: out) ?_
      intro hflags
      constructor
      · intro hfalse
        exact absurd hfalse (by simp)
      · intro hhead
        exfalso
        apply hcond
        rw [Bool.and_eq_true]
        refine ⟨hflags, ?_⟩
        have hc : c = '?' := by simpa using hhead
        rw [hc]
        rfl

/-- Claim C9: the normalizer implements exactly the spec-described scan — quote
and dollar toggles (each inert inside the other's region), digits and `?`
inside a region replaced by a single `?` with consecutive replacements
collapsed, and everything outside both regions copied verbatim. -/
theorem normalizer_behavior (query : List Char) :
    pgqs_normalize_query query = normalize_spec query :=
  normalize_go_eq query false false false [] (by simp)

end PgQueryStats
